import Mathlib

/-!
Verification of `blameworthy/gitops.go` (livegrep): a shallow embedding of
`StripGitLog`, `ParseGitLog` and their helpers, together with theorems that
settle the specification claims.

Modelling conventions:
* An input stream is a `List String`, one entry per scanner line (the Go code
  reads lines with `bufio.Scanner`, which splits on newlines).  Strings are
  Lean strings, i.e. lists of characters; the Go code slices by byte, which
  agrees with the character model on the ASCII data the format consists of.
* Go runtime panics (nil-pointer dereference, slice bounds violations) are
  modelled with `Except GoPanic`; a `.error` result means the Go function
  panics rather than returning.
* Go `int` is 64-bit: `strconv.Atoi` clamps an out-of-range decimal to the
  extreme `int64` value (ignoring the returned range error, as the source
  does), and `int` addition wraps modulo 2^64.  `int32` conversion (for the
  `Date` field) wraps modulo 2^32.
* Go maps (`history.Commits`, `history.Files`, `authors`) are modelled as
  association lists with insert-or-replace; the claims only inspect them via
  lookup, never via iteration order.
* Go's two compiled regexes are translated to explicit deterministic scanning
  functions.  Both patterns have the shape `literal (A+) lit? (B*) literal …`
  where the character classes of the groups are disjoint from the literals
  that follow them, so the greedy leftmost-first semantics of Go's regexp
  engine is realised exactly by maximal-munch scanning with no backtracking:
  a greedy group always stops at the first character outside its class, and
  giving characters back can never help because the literal that follows the
  group cannot match a character of the group's class.
-/

/-! ## Character / string primitives mirroring the Go standard library -/

/-- Character-list prefix test, mirroring `strings.HasPrefix`. -/
def isPre : List Char → List Char → Bool
  | [], _ => true
  | _ :: _, [] => false
  | a :: as, b :: bs => if a = b then isPre as bs else false

/-- Drop an expected leading literal, returning the remainder when the literal
is present (used to realise the anchored literal part of the regexes and the
`strings.HasPrefix` guards together with slicing). -/
def dropPre : List Char → List Char → Option (List Char)
  | [], s => some s
  | _ :: _, [] => none
  | a :: as, b :: bs => if a = b then dropPre as bs else none

/-- String-level `strings.HasPrefix`. -/
def hasPre (p s : String) : Bool := isPre p.data s.data

/-- Build a string from a character list. -/
def strOf (cs : List Char) : String := ⟨cs⟩

/-- Maximal run of decimal digits at the head of a character list, with the
remainder (the greedy `(\d+)` / `(\d*)` groups of the hunk regexes). -/
def spanDigits : List Char → List Char × List Char
  | [] => ([], [])
  | c :: cs =>
    if c.isDigit then
      let r := spanDigits cs
      (c :: r.1, r.2)
    else ([], c :: cs)

/-- Lower-case hexadecimal digit, the class `[0-9a-f]` of the `index` regex. -/
def isHexLower (c : Char) : Bool := c.isDigit || ('a' ≤ c && c ≤ 'f')

/-- Maximal run of `[0-9a-f]` characters at the head of a character list. -/
def spanHex : List Char → List Char × List Char
  | [] => ([], [])
  | c :: cs =>
    if isHexLower c then
      let r := spanHex cs
      (c :: r.1, r.2)
    else ([], c :: cs)

/-- Leftmost occurrence of a substring, mirroring `strings.Index` (which the
stripper uses to find `" @@"`); `none` stands for Go's `-1`. -/
def findSub (pat : List Char) : List Char → Option Nat
  | [] => if pat.isEmpty then some 0 else none
  | c :: cs => if isPre pat (c :: cs) then some 0 else (findSub pat cs).map (· + 1)

/-- White-space class of Go's `unicode.IsSpace`, used by `strings.TrimSpace`. -/
def isGoSpace (c : Char) : Bool :=
  c = ' ' || c = '\t' || c = '\n' || c.toNat = 11 || c.toNat = 12 || c = '\r' ||
  c.toNat = 0x85 || c.toNat = 0xA0 || c.toNat = 0x1680 ||
  (0x2000 ≤ c.toNat && c.toNat ≤ 0x200A) ||
  c.toNat = 0x2028 || c.toNat = 0x2029 || c.toNat = 0x202F ||
  c.toNat = 0x205F || c.toNat = 0x3000

/-- Mirror of `strings.TrimSpace`. -/
def goTrimSpace (s : String) : String :=
  strOf (((s.data.dropWhile isGoSpace).reverse.dropWhile isGoSpace).reverse)

/-- Numeric value of a digit run. -/
def digitsToNat (cs : List Char) : Nat :=
  cs.foldl (fun a c => a * 10 + (c.toNat - 48)) 0

/-- Mirror of `strconv.Atoi` as the source uses it: the error return is always
discarded, so a string that is not an optionally-signed digit run yields `0`
(the value `ParseInt` reports alongside a syntax error) and an out-of-range
decimal yields the clamped extreme 64-bit value (reported alongside the range
error). -/
def goAtoi (s : String) : Int :=
  match s.data with
  | [] => 0
  | c :: rest =>
    let body := if c = '+' || c = '-' then rest else c :: rest
    if body.isEmpty || !body.all Char.isDigit then 0
    else
      let v : Int := (digitsToNat body : Int)
      if c = '-' then max (-v) (-(2 ^ 63)) else min v (2 ^ 63 - 1)

/-- Wrap-around of 64-bit signed integer arithmetic (Go `int`). -/
def wrap64 (x : Int) : Int := (x + 2 ^ 63) % 2 ^ 64 - 2 ^ 63

/-- Wrap-around conversion to `int32`, used for the `Date` field. -/
def wrap32 (x : Int) : Int := (x + 2 ^ 31) % 2 ^ 32 - 2 ^ 31

/-! ## The two regexes of `gitops.go` -/

/-- Core of both hunk-header regexes: after the literal `@@ -`, match
`(\d+),?(\d*) \+(\d+),?(\d*) ` and return the four groups and the remainder
after the final mandatory space.  As argued in the header comment, greedy
matching is exact here because digits never match the literals `,`, ` `, `+`
that delimit the groups, so no backtracking can rescue a failed parse. -/
def matchHunkCore (cs : List Char) : Option (List Char × List Char × List Char × List Char × List Char) :=
  let s1 := spanDigits cs
  if s1.1.isEmpty then none
  else
    let r2 := match s1.2 with
      | ',' :: t => t
      | t => t
    let s2 := spanDigits r2
    match s2.2 with
    | ' ' :: '+' :: r4 =>
      let s3 := spanDigits r4
      if s3.1.isEmpty then none
      else
        let r6 := match s3.2 with
          | ',' :: t => t
          | t => t
        let s4 := spanDigits r6
        match s4.2 with
        | ' ' :: r8 => some (s1.1, s2.1, s3.1, s4.1, r8)
        | _ => none
    | _ => none

/-- The parser regex `^@@ -(\d+),?(\d*) \+(\d+),?(\d*) @@(-?)` of
`ParseGitLog`: groups 1-4 as digit strings plus whether group 5 (the stripped
marker) is the dash. -/
def hunkMatch (line : String) : Option (List Char × List Char × List Char × List Char × Bool) :=
  match dropPre ['@', '@', ' ', '-'] line.data with
  | none => none
  | some r =>
    match matchHunkCore r with
    | none => none
    | some (g1, g2, g3, g4, r8) =>
      match r8 with
      | '@' :: '@' :: r9 =>
        let marked := match r9 with
          | '-' :: _ => true
          | _ => false
        some (g1, g2, g3, g4, marked)
      | _ => none

/-- The stripper regex `^@@ -(\d+),?(\d*) \+(\d+),?(\d*) ` of `StripGitLog`
(no `@@(-?)` tail): just the four groups. -/
def hunkMatchStrip (line : String) : Option (List Char × List Char × List Char × List Char) :=
  match dropPre ['@', '@', ' ', '-'] line.data with
  | none => none
  | some r =>
    match matchHunkCore r with
    | none => none
    | some (g1, g2, g3, g4, _) => some (g1, g2, g3, g4)

/-- The regex `^index ([0-9a-f]+)\.\.([0-9a-f]+)` of `ParseGitLog`. -/
def indexMatch (line : String) : Option (List Char × List Char) :=
  match dropPre ['i', 'n', 'd', 'e', 'x', ' '] line.data with
  | none => none
  | some r =>
    let s1 := spanHex r
    if s1.1.isEmpty then none
    else
      match s1.2 with
      | '.' :: '.' :: r2 =>
        let s2 := spanHex r2
        if s2.1.isEmpty then none else some (s1.1, s2.1)
      | _ => none

/-- Mirror of `emptyZero`: substitute the empty string for an all-zero hash
(`strings.Count(hash, "0") == len(hash)` holds exactly when every character is
the digit zero). -/
def emptyZero (hash : String) : String :=
  if hash.data.all (· = '0') then "" else hash

/-! ## Data model of `gitops.go`

Go's `Commit` objects are heap-allocated once per `commit` line and referenced
by pointer from the `Commits` map and from each `Diff`; we realise pointer
identity with an arena (`arena : List Commit`) indexed by allocation order.
`HashLength` is the constant 16 of the source. -/

def HashLength : Nat := 16

/-- Mirror of `type Hunk struct`; fields are Go `int`s. -/
structure Hunk where
  OldStart : Int
  OldLength : Int
  NewStart : Int
  NewLength : Int
deriving Repr, DecidableEq

/-- A `*Diff` stored in a commit's `Diffs` list: the path of the per-path file
slice it points into, and the index within that slice. -/
structure DiffRef where
  path : String
  idx : Nat
deriving Repr, DecidableEq

/-- Mirror of `type Diff struct`; the `Commit` field is the `*Commit` pointer,
i.e. an arena index (or `none` for Go's nil pointer). -/
structure Diff where
  Commit : Option Nat
  Path : String
  ChecksumBefore : String
  ChecksumAfter : String
  Hunks : List Hunk
deriving Repr, DecidableEq

/-- Mirror of `type Commit struct`. -/
structure Commit where
  Hash : String
  Author : String
  Date : Int
  Diffs : List DiffRef
deriving Repr, DecidableEq

/-- Mirror of `type GitHistory struct`, with the commit arena carried
alongside so that the pointer-valued `Commits` map and `Diff.Commit` fields
can be dereferenced. -/
structure GitHistory where
  Hashes : List String
  Commits : List (String × Nat)
  Files : List (String × List Diff)
  arena : List Commit
deriving Repr, DecidableEq

/-- Association-list lookup (Go map read; `none` is the missing key / nil). -/
def lookupA {α : Type} : List (String × α) → String → Option α
  | [], _ => none
  | (k, v) :: t, key => if k = key then some v else lookupA t key

/-- Association-list insert-or-replace (Go map write). -/
def insertA {α : Type} : List (String × α) → String → α → List (String × α)
  | [], key, v => [(key, v)]
  | (k, w) :: t, key, v =>
    if k = key then (k, v) :: t else (k, w) :: insertA t key v

/-- Update the value at a key, leaving the list unchanged when absent. -/
def updValA {α : Type} : List (String × α) → String → (α → α) → List (String × α)
  | [], _, _ => []
  | (k, w) :: t, key, f =>
    if k = key then (k, f w) :: t else (k, w) :: updValA t key f

/-- Update the last element of a list (the Go write through `diff`, a pointer
to the most recently appended element of `files[path]`). -/
def updLast {α : Type} (f : α → α) : List α → List α
  | [] => []
  | [a] => [f a]
  | a :: b :: t => a :: updLast f (b :: t)

/-- Arena read through a `*Commit`; indices are in range by construction. -/
def getArena (arena : List Commit) (i : Nat) : Commit :=
  arena.getD i ⟨"", "", 0, []⟩

/-- Arena write through a `*Commit`. -/
def setArena (arena : List Commit) (i : Nat) (f : Commit → Commit) : List Commit :=
  arena.take i ++ (match arena.get? i with
    | some c => [f c]
    | none => []) ++ arena.drop (i + 1)

/-- Go runtime panics that `ParseGitLog` / `StripGitLog` can hit. -/
inductive GoPanic where
  | nilDeref
  | sliceBounds
deriving Repr, DecidableEq

/-- Scanner modes of the parser's implicit state machine: `skip n` while the
inner loop after an unstripped hunk header still has to discard `n` lines
(`n ≥ 1` by construction), `dashes p` between a `--- ` line (whose payload is
`p`) and the inner `scanner.Scan()` that reads the `+++` line. -/
inductive PMode where
  | normal
  | skip (n : Nat)
  | dashes (p : String)
deriving Repr, DecidableEq

/-- Full parser state: the history under construction, the author
deduplication map (only its key set matters: `authors[a] = a`), the pending
`checksum` from the last `index` line, the current commit pointer
(`var commit *Commit`), the current diff pointer (`var diff *Diff`, identified
by the path of the slice whose last element it addresses), and the scan
mode. -/
structure PState where
  Hashes : List String
  Commits : List (String × Nat)
  Files : List (String × List Diff)
  arena : List Commit
  authors : List String
  checksum : String
  curCommit : Option Nat
  curDiff : Option String
  mode : PMode
deriving Repr, DecidableEq

/-- Initial parser state. -/
def initPState : PState :=
  ⟨[], [], [], [], [], "", none, none, .normal⟩

/-- Completion of a `--- ` line once the following line (`line2`, the `+++`
line; the empty string at end of stream) has been read by the inner
`scanner.Scan()`.  Mirrors source lines 174-192: take the path from `line2`
when the `--- ` payload is `/dev/null` (slicing `line2[4:]`, a bounds panic on
a short line), inherit `ChecksumBefore` from the last prior diff of the path,
append the new `Diff` carrying the pending checksum, clear the pending
checksum, retarget `diff`, and append the new `*Diff` to `commit.Diffs` (a nil
dereference when no commit line has been seen). -/
def finishDashes (s : PState) (p line2 : String) : Except GoPanic PState :=
  if p = "/dev/null" ∧ line2.data.length < 4 then .error .sliceBounds
  else
    let path := if p = "/dev/null" then strOf (line2.data.drop 4) else p
    let prior := lookupA s.Files path
    let csBefore := match prior with
      | none => ""
      | some l => (l.getLastD ⟨none, "", "", "", []⟩).ChecksumAfter
    let d : Diff := ⟨s.curCommit, path, csBefore, s.checksum, []⟩
    let newList := match prior with
      | none => [d]
      | some l => l ++ [d]
    match s.curCommit with
    | none => .error .nilDeref
    | some ci =>
      .ok { s with
        Files := insertA s.Files path newList
        checksum := ""
        curDiff := some path
        arena := setArena s.arena ci
          (fun c => { c with Diffs := c.Diffs ++ [⟨path, newList.length - 1⟩] }) }

/-- One step of the scan loop of `ParseGitLog` (source lines 160-233) on one
line, in `normal` mode: the prefix dispatch in source order. -/
def dispatch (s : PState) (line : String) : Except GoPanic PState :=
  if hasPre "commit " line then
    if line.data.length < 7 + HashLength then .error .sliceBounds
    else
      let h := strOf ((line.data.drop 7).take HashLength)
      let ci := s.arena.length
      .ok { s with
        Hashes := s.Hashes ++ [h]
        arena := s.arena ++ [⟨h, "", 0, []⟩]
        Commits := insertA s.Commits h ci
        curCommit := some ci }
  else if hasPre "index " line then
    match indexMatch line with
    | none => .ok s
    | some (_, g2) => .ok { s with checksum := emptyZero (strOf g2) }
  else if hasPre "--- " line then
    .ok { s with mode := .dashes (strOf (line.data.drop 4)) }
  else if hasPre "@@ " line then
    match hunkMatch line with
    | none => .ok s
    | some (g1, g2, g3, g4, marked) =>
      match s.curDiff with
      | none => .error .nilDeref
      | some p =>
        let OldStart := goAtoi (strOf g1)
        let OldLength := if g2.length > 0 then goAtoi (strOf g2) else 1
        let NewStart := goAtoi (strOf g3)
        let NewLength := if g4.length > 0 then goAtoi (strOf g4) else 1
        let s1 := { s with
          Files := updValA s.Files p
            (updLast (fun d =>
              { d with Hunks := d.Hunks ++ [⟨OldStart, OldLength, NewStart, NewLength⟩] })) }
        if marked then .ok s1
        else
          let n := (wrap64 (OldLength + NewLength)).toNat
          .ok { s1 with mode := if n = 0 then .normal else .skip n }
  else
    match s.curCommit with
    | none => .error .nilDeref
    | some ci =>
      let c := getArena s.arena ci
      if c.Author = "" ∧ hasPre "Author: " line then
        let a := goTrimSpace (strOf (line.data.drop 8))
        if s.authors.contains a then
          .ok { s with arena := setArena s.arena ci (fun c0 => { c0 with Author := a }) }
        else .ok { s with authors := s.authors ++ [a] }
      else if c.Date = 0 ∧ hasPre "Date: " line then
        let d := wrap32 (goAtoi (strOf (line.data.drop 6)))
        .ok { s with arena := setArena s.arena ci (fun c0 => { c0 with Date := d }) }
      else .ok s

/-- One line of the scan, in any mode: lines read while the inner skip loop is
active are discarded; a line read right after a `--- ` line completes that
diff header. -/
def pstep (s : PState) (line : String) : Except GoPanic PState :=
  match s.mode with
  | .skip n => .ok { s with mode := if n ≤ 1 then .normal else .skip (n - 1) }
  | .dashes p => finishDashes { s with mode := .normal } p line
  | .normal => dispatch s line

/-- The scan loop over the whole stream. -/
def parseLoop (s : PState) : List String → Except GoPanic PState
  | [] => .ok s
  | l :: ls =>
    match pstep s l with
    | .error e => .error e
    | .ok s1 => parseLoop s1 ls

/-- Package the final state as the returned `GitHistory`. -/
def extractHistory (s : PState) : GitHistory :=
  ⟨s.Hashes, s.Commits, s.Files, s.arena⟩

/-- Mirror of `ParseGitLog` on a line stream.  When the stream ends right
after a `--- ` line, the inner `scanner.Scan()` has failed and
`scanner.Text()` returns the empty string, so the diff header is completed
with `line2 = ""` (source lines 175-178).  A pending skip at end of stream
just runs the inner loop's `scanner.Scan()` to no effect.  Scanner-level read
errors cannot occur on an in-memory list of lines, so the returned `error` is
nil whenever the function returns. -/
def ParseGitLog (lines : List String) : Except GoPanic GitHistory :=
  match parseLoop initPState lines with
  | .error e => .error e
  | .ok s =>
    match s.mode with
    | .dashes p =>
      match finishDashes { s with mode := .normal } p "" with
      | .error e => .error e
      | .ok s1 => .ok (extractHistory s1)
    | _ => .ok (extractHistory s)

/-! ## The stripper `StripGitLog`

The output writer (`fmt.Print`) is modelled by a budget of successful writes:
`none` for a writer that never fails, `some k` for a writer whose first `k`
writes succeed and whose next write fails (the consumer closed the pipe).  The
source reacts to a failed write with `return nil`, i.e. it stops at once and
reports success.  On an in-memory list of lines `scanner.Err()` is nil, so the
returned `error` is nil in every non-panicking run; `StripEnd.returned` is
that nil return and `StripEnd.panicked` a Go runtime panic (the source indexes
`rest[:i]` with `i = -1` and `result_slice[...]` on a nil slice for malformed
`@@ ` lines). -/

inductive StripEnd where
  | returned
  | panicked (e : GoPanic)
deriving Repr, DecidableEq

/-- Scanner state of the stripper: after a hunk header the inner loop still
has to discard `n + 1` lines, and the rewritten header `pend` is printed only
after that loop finishes (source order: rewrite, skip, print). -/
inductive SMode where
  | normal
  | skipThenWrite (n : Nat) (pend : String)
deriving Repr, DecidableEq

/-- Decrement the write budget: `none` means the write failed. -/
def useBudget : Option Nat → Option (Option Nat)
  | none => some none
  | some 0 => none
  | some (n + 1) => some (some n)

/-- Is a line one of the six structural categories the stripper passes through
verbatim (source lines 96-101)? -/
def stripPassThrough (line : String) : Bool :=
  hasPre "commit " line || hasPre "Author: " line || hasPre "Date: " line ||
  hasPre "index " line || hasPre "--- " line || hasPre "+++ " line

/-- The scan loop of `StripGitLog`: returns the lines actually written and how
the function ended.  A failed write returns immediately with the nil error
(`.returned`). -/
def stripLoop (b : Option Nat) (m : SMode) : List String → List String × StripEnd
  | [] =>
    match m with
    | .normal => ([], .returned)
    | .skipThenWrite _ pend =>
      match useBudget b with
      | none => ([], .returned)
      | some _ => ([pend], .returned)
  | line :: rest =>
    match m with
    | .skipThenWrite 0 pend =>
      match useBudget b with
      | none => ([], .returned)
      | some b1 =>
        let r := stripLoop b1 .normal rest
        (pend :: r.1, r.2)
    | .skipThenWrite (n + 1) pend =>
      stripLoop b (.skipThenWrite n pend) rest
    | .normal =>
      if stripPassThrough line then
        match useBudget b with
        | none => ([], .returned)
        | some b1 =>
          let r := stripLoop b1 .normal rest
          (line :: r.1, r.2)
      else if hasPre "@@ " line then
        match findSub [' ', '@', '@'] (line.data.drop 3) with
        | none => ([], .panicked .sliceBounds)
        | some i =>
          let rewritten := strOf (('@' :: '@' :: ' ' :: ((line.data.drop 3).take i)) ++ [' ', '@', '@', '-'])
          match hunkMatchStrip rewritten with
          | none => ([], .panicked .nilDeref)
          | some (_, g2, _, g4) =>
            let oldLength := if g2.length > 0 then goAtoi (strOf g2) else 1
            let newLength := if g4.length > 0 then goAtoi (strOf g4) else 1
            let n := (wrap64 (oldLength + newLength)).toNat
            if n = 0 then
              match useBudget b with
              | none => ([], .returned)
              | some b1 =>
                let r := stripLoop b1 .normal rest
                (rewritten :: r.1, r.2)
            else stripLoop b (.skipThenWrite (n - 1) rewritten) rest
      else stripLoop b .normal rest

/-- Mirror of `StripGitLog`: strip a stream against a given write budget. -/
def StripGitLog (b : Option Nat) (lines : List String) : List String × StripEnd :=
  stripLoop b .normal lines

/-- The full output of the stripper against a writer that never fails. -/
def stripOutput (lines : List String) : List String :=
  (StripGitLog none lines).1

/-! ## Basic lemmas about the string primitives -/

instance {ε α : Type} [DecidableEq ε] [DecidableEq α] : DecidableEq (Except ε α) := fun x y =>
  match x, y with
  | .ok a, .ok b =>
    if h : a = b then .isTrue (congrArg Except.ok h)
    else .isFalse (fun he => h (Except.ok.inj he))
  | .error a, .error b =>
    if h : a = b then .isTrue (congrArg Except.error h)
    else .isFalse (fun he => h (Except.error.inj he))
  | .ok _, .error _ => .isFalse Except.noConfusion
  | .error _, .ok _ => .isFalse Except.noConfusion

@[simp] theorem data_append (a b : String) : (a ++ b).data = a.data ++ b.data := rfl

@[simp] theorem data_length (s : String) : s.data.length = s.length := rfl

@[simp] theorem data_strOf (cs : List Char) : (strOf cs).data = cs := rfl

@[simp] theorem strOf_data (s : String) : strOf s.data = s := rfl

theorem dropPre_eq_some {p s r : List Char} (h : dropPre p s = some r) : s = p ++ r := by
  induction p generalizing s with
  | nil => simpa [dropPre] using h
  | cons a as ih =>
    cases s with
    | nil => simp [dropPre] at h
    | cons b bs =>
      by_cases hab : a = b
      · subst hab
        simp only [dropPre, if_pos rfl] at h
        simpa using ih h
      · simp [dropPre, Ne.symm hab, hab] at h

theorem isPre_append_self (p r : List Char) : isPre p (p ++ r) = true := by
  induction p with
  | nil => simp [isPre]
  | cons a as ih => simpa [isPre] using ih

theorem hunkMatch_shape {line : String} {t} (h : hunkMatch line = some t) :
    ∃ r, line.data = '@' :: '@' :: ' ' :: '-' :: r := by
  unfold hunkMatch at h
  cases hd : dropPre ['@', '@', ' ', '-'] line.data with
  | none => rw [hd] at h; exact absurd h (by simp)
  | some r => exact ⟨r, dropPre_eq_some hd⟩

theorem indexMatch_shape {line : String} {t} (h : indexMatch line = some t) :
    ∃ r, line.data = 'i' :: 'n' :: 'd' :: 'e' :: 'x' :: ' ' :: r := by
  unfold indexMatch at h
  cases hd : dropPre ['i', 'n', 'd', 'e', 'x', ' '] line.data with
  | none => rw [hd] at h; exact absurd h (by simp)
  | some r => exact ⟨r, dropPre_eq_some hd⟩

theorem pstep_normal (s : PState) (l : String) (h : s.mode = .normal) :
    pstep s l = dispatch s l := by
  unfold pstep; rw [h]

theorem pstep_skip (s : PState) (l : String) (n : Nat) (h : s.mode = .skip n) :
    pstep s l = .ok { s with mode := if n ≤ 1 then .normal else .skip (n - 1) } := by
  unfold pstep; rw [h]

theorem pstep_dashes (s : PState) (l p : String) (h : s.mode = .dashes p) :
    pstep s l = finishDashes { s with mode := .normal } p l := by
  unfold pstep; rw [h]

theorem dispatch_commit (s : PState) (id : String) (h : 16 ≤ id.length) :
    dispatch s ("commit " ++ id) = .ok { s with
      Hashes := s.Hashes ++ [strOf (id.data.take 16)]
      arena := s.arena ++ [⟨strOf (id.data.take 16), "", 0, []⟩]
      Commits := insertA s.Commits (strOf (id.data.take 16)) s.arena.length
      curCommit := some s.arena.length } := by
  have hp : hasPre "commit " ("commit " ++ id) = true := by
    simp [hasPre, isPre, String.data]
  have hl : ¬ (("commit " ++ id).data.length < 7 + HashLength) := by
    simp [String.data, HashLength]; omega
  simp [dispatch, hp, hl, HashLength, String.data]
  omega

theorem dispatch_dashes (s : PState) (p : String) :
    dispatch s ("--- " ++ p) = .ok { s with mode := .dashes p } := by
  simp [dispatch, hasPre, isPre, String.data]

theorem dispatch_index {line : String} {g1 g2 : List Char} (s : PState)
    (h : indexMatch line = some (g1, g2)) :
    dispatch s line = .ok { s with checksum := emptyZero (strOf g2) } := by
  obtain ⟨r, hr⟩ := indexMatch_shape h
  cases line with
  | mk data =>
    simp only [String.data] at hr
    subst hr
    have hp : hasPre "index " ⟨'i' :: 'n' :: 'd' :: 'e' :: 'x' :: ' ' :: r⟩ = true := by
      simp [hasPre, isPre, String.data]
    have hnc : hasPre "commit " ⟨'i' :: 'n' :: 'd' :: 'e' :: 'x' :: ' ' :: r⟩ = false := by
      simp [hasPre, isPre, String.data]
    simp [dispatch, hp, hnc, h]

theorem dispatch_hunk {line : String} {g1 g2 g3 g4 : List Char} {marked : Bool} {p : String}
    (s : PState) (h : hunkMatch line = some (g1, g2, g3, g4, marked)) (hd : s.curDiff = some p) :
    dispatch s line =
      (let OldStart := goAtoi (strOf g1)
       let OldLength := if g2.length > 0 then goAtoi (strOf g2) else 1
       let NewStart := goAtoi (strOf g3)
       let NewLength := if g4.length > 0 then goAtoi (strOf g4) else 1
       let s1 := { s with
         Files := updValA s.Files p
           (updLast (fun d =>
             { d with Hunks := d.Hunks ++ [⟨OldStart, OldLength, NewStart, NewLength⟩] })) }
       if marked then .ok s1
       else
         let n := (wrap64 (OldLength + NewLength)).toNat
         .ok { s1 with mode := if n = 0 then .normal else .skip n }) := by
  obtain ⟨r, hr⟩ := hunkMatch_shape h
  cases line with
  | mk data =>
    simp only [String.data] at hr
    subst hr
    have hp : hasPre "@@ " ⟨'@' :: '@' :: ' ' :: '-' :: r⟩ = true := by
      simp [hasPre, isPre, String.data]
    have h1 : hasPre "commit " ⟨'@' :: '@' :: ' ' :: '-' :: r⟩ = false := by
      simp [hasPre, isPre, String.data]
    have h2 : hasPre "index " ⟨'@' :: '@' :: ' ' :: '-' :: r⟩ = false := by
      simp [hasPre, isPre, String.data]
    have h3 : hasPre "--- " ⟨'@' :: '@' :: ' ' :: '-' :: r⟩ = false := by
      simp [hasPre, isPre, String.data]
    simp [dispatch, hp, h1, h2, h3, h, hd]

theorem dispatch_author (s : PState) (a : String) {ci : Nat}
    (hc : s.curCommit = some ci) (ha : (getArena s.arena ci).Author = "") :
    dispatch s ("Author: " ++ a) =
      (if s.authors.contains (goTrimSpace a) then
        .ok { s with arena := setArena s.arena ci (fun c0 => { c0 with Author := goTrimSpace a }) }
      else .ok { s with authors := s.authors ++ [goTrimSpace a] }) := by
  have h1 : hasPre "commit " ("Author: " ++ a) = false := by simp [hasPre, isPre, String.data]
  have h2 : hasPre "index " ("Author: " ++ a) = false := by simp [hasPre, isPre, String.data]
  have h3 : hasPre "--- " ("Author: " ++ a) = false := by simp [hasPre, isPre, String.data]
  have h4 : hasPre "@@ " ("Author: " ++ a) = false := by simp [hasPre, isPre, String.data]
  have h5 : hasPre "Author: " ("Author: " ++ a) = true := by simp [hasPre, isPre, String.data]
  have h6 : (("Author: " ++ a).data.drop 8) = a.data := by simp [String.data]
  simp [dispatch, h1, h2, h3, h4, h5, h6, hc, ha]

theorem dispatch_date (s : PState) (d : String) {ci : Nat}
    (hc : s.curCommit = some ci) (hd : (getArena s.arena ci).Date = 0) :
    dispatch s ("Date: " ++ d) =
      .ok { s with arena := setArena s.arena ci (fun c0 => { c0 with Date := wrap32 (goAtoi d) }) } := by
  have h1 : hasPre "commit " ("Date: " ++ d) = false := by simp [hasPre, isPre, String.data]
  have h2 : hasPre "index " ("Date: " ++ d) = false := by simp [hasPre, isPre, String.data]
  have h3 : hasPre "--- " ("Date: " ++ d) = false := by simp [hasPre, isPre, String.data]
  have h4 : hasPre "@@ " ("Date: " ++ d) = false := by simp [hasPre, isPre, String.data]
  have h5 : hasPre "Author: " ("Date: " ++ d) = false := by simp [hasPre, isPre, String.data]
  have h6 : hasPre "Date: " ("Date: " ++ d) = true := by simp [hasPre, isPre, String.data]
  have h7 : (("Date: " ++ d).data.drop 6) = d.data := by simp [String.data]
  by_cases hauth : (getArena s.arena ci).Author = ""
  · simp [dispatch, h1, h2, h3, h4, h5, h6, h7, hc, hd, hauth]
  · simp [dispatch, h1, h2, h3, h4, h5, h6, h7, hc, hd, hauth]

theorem finishDashes_path (s : PState) (p line2 : String) {ci : Nat}
    (hnd : p ≠ "/dev/null") (hc : s.curCommit = some ci) :
    finishDashes s p line2 =
      (let prior := lookupA s.Files p
       let csBefore := match prior with
         | none => ""
         | some l => (l.getLastD ⟨none, "", "", "", []⟩).ChecksumAfter
       let d : Diff := ⟨s.curCommit, p, csBefore, s.checksum, []⟩
       let newList := match prior with
         | none => [d]
         | some l => l ++ [d]
       .ok { s with
         Files := insertA s.Files p newList
         checksum := ""
         curDiff := some p
         arena := setArena s.arena ci (fun c => { c with Diffs := c.Diffs ++ [⟨p, newList.length - 1⟩] }) }) := by
  simp [finishDashes, hnd, hc]

theorem finishDashes_devnull (s : PState) (line2 : String) {ci : Nat}
    (h4 : 4 ≤ line2.length) (hc : s.curCommit = some ci) :
    finishDashes s "/dev/null" line2 =
      (let path := strOf (line2.data.drop 4)
       let prior := lookupA s.Files path
       let csBefore := match prior with
         | none => ""
         | some l => (l.getLastD ⟨none, "", "", "", []⟩).ChecksumAfter
       let d : Diff := ⟨s.curCommit, path, csBefore, s.checksum, []⟩
       let newList := match prior with
         | none => [d]
         | some l => l ++ [d]
       .ok { s with
         Files := insertA s.Files path newList
         checksum := ""
         curDiff := some path
         arena := setArena s.arena ci (fun c => { c with Diffs := c.Diffs ++ [⟨path, newList.length - 1⟩] }) }) := by
  have h4d : ¬ line2.data.length < 4 := by simp; omega
  simp [finishDashes, hc, h4d]
  omega

theorem parseLoop_append (s : PState) (xs ys : List String) :
    parseLoop s (xs ++ ys) =
      (match parseLoop s xs with
       | .error e => .error e
       | .ok s1 => parseLoop s1 ys) := by
  induction xs generalizing s with
  | nil => simp [parseLoop]
  | cons l ls ih =>
    simp only [List.cons_append, parseLoop]
    cases pstep s l with
    | error e => rfl
    | ok s1 => exact ih s1

theorem parseLoop_skip (cs : List String) (s : PState) (rest : List String)
    (h : s.mode = .skip cs.length) (hne : cs ≠ []) :
    parseLoop s (cs ++ rest) = parseLoop { s with mode := .normal } rest := by
  induction cs generalizing s with
  | nil => exact absurd rfl hne
  | cons c ct ih =>
    simp only [List.cons_append, parseLoop]
    rw [pstep_skip s c (ct.length + 1) (by simpa using h)]
    by_cases hz : ct = []
    · subst hz
      simp [parseLoop]
    · have hlen : ¬ (ct.length + 1 ≤ 1) := by
        have := List.length_pos.mpr hz; omega
      simp only [if_neg hlen]
      simpa using ih { s with mode := .skip ct.length } (by simp) hz

/-! ## Claim C3: author deduplication -/

/-- The zero `Diff` used as fallback by list accessors (never hit: per-path
lists are nonempty by construction). -/
def diffZero : Diff := ⟨none, "", "", "", []⟩

/-- The most recent diff recorded for a path. -/
def lastDiffOf (h : GitHistory) (p : String) : Option Diff :=
  (lookupA h.Files p).map (fun l => l.getLastD diffZero)

/-- Claim C3: the claim states that every commit by an author, including the
first commit by that author, carries the author's address.  The code instead
only inserts a first-seen address into the dedup map and forgets to assign it
to the current commit, so the first commit by each author keeps the empty
`Author` while later commits by the same author receive the shared string:
parsing two commits with the identical line `Author: alice@example.com` leaves
the first commit's `Author` empty and sets only the second.  (The comment
`// dedup authors` and the spec show deduplication-with-recording is the
intent, so this is a slip in the code.) -/
theorem parseGitLog_author_dropped_on_first_use :
    (ParseGitLog ["commit 0123456789abcdef0123456789abcdef01234567",
                  "Author: alice@example.com",
                  "commit 89abcdef012345670123456789abcdef01234567",
                  "Author: alice@example.com"]).map
      (fun h => ((getArena h.arena 0).Author, (getArena h.arena 1).Author))
      = .ok ("", "alice@example.com") := by
  decide

/-! ## Claim C5: totality of `ParseGitLog` -/

/-- Claim C5 counterexample: the claim states `ParseGitLog` returns normally
on every input stream.  On the one-line stream `["hello"]` the line matches no
structural prefix and the parser evaluates `len(commit.Author)` with `commit`
still nil, a nil-pointer dereference panic, not a normal return. -/
theorem parseGitLog_panics_on_lone_line :
    ParseGitLog ["hello"] = .error .nilDeref := by
  decide

/-- Skip-mode consumption: with `n` lines still to discard and at least `n`
lines remaining, the parser drops exactly `n` lines and resumes structural
scanning. -/
theorem parseLoop_skipDrop (s : PState) (rest : List String) (n : Nat)
    (h : s.mode = .skip n) (h1 : 1 ≤ n) (hle : n ≤ rest.length) :
    parseLoop s rest = parseLoop { s with mode := .normal } (rest.drop n) := by
  have hlt : (rest.take n).length = n := List.length_take_of_le hle
  have hne : rest.take n ≠ [] := by
    intro he
    rw [he] at hlt
    simp at hlt
    omega
  have h2 := parseLoop_skip (rest.take n) s (rest.drop n) (by rw [hlt]; exact h) hne
  rwa [List.take_append_drop] at h2

/-- Claim C2 counterexample: the claim states the appended `Hunk` carries
`OldLength = b` for the header's literal decimal `b`.  For
`b = 9223372036854775808 = 2^63` the source's `strconv.Atoi` overflows `int`
and (its error discarded) yields the clamped maximum `2^63 - 1`, so the stored
`OldLength` differs from `b`. -/
theorem parseGitLog_hunk_length_clamped :
    (ParseGitLog ["commit 0123456789abcdef0123456789abcdef01234567",
                  "--- f", "+++ f",
                  "@@ -1,9223372036854775808 +1,0 @@-"]).map
        (fun h => (lastDiffOf h "f").map (·.Hunks))
      = .ok (some [⟨1, 9223372036854775807, 1, 0⟩]) ∧
    (ParseGitLog ["commit 0123456789abcdef0123456789abcdef01234567",
                  "--- f", "+++ f",
                  "@@ -1,9223372036854775808 +1,0 @@-"]).map
        (fun h => (lastDiffOf h "f").map (·.Hunks))
      ≠ .ok (some [⟨1, 9223372036854775808, 1, 0⟩]) := by
  constructor
  · decide
  · decide

/-- Claim C2 (amended): on a hunk-header line matched by the parser's regex
while a current diff exists, `ParseGitLog` appends to that diff a `Hunk` whose
fields are the header's decimals read by `strconv.Atoi` with the error
discarded — i.e. clamped to `2^63 - 1` on overflow — with `OldLength` and
`NewLength` defaulting to `1` when the `,b` / `,d` group is absent or empty;
when the header carries no stripped marker the parser then consumes and
discards exactly `(OldLength + NewLength)` further lines, that sum computed in
64-bit arithmetic and treated as zero when it wraps negative (and capped by
the end of the stream — the hypothesis `hle` requires enough lines so the
exact count is observable); when the marker is present it consumes zero
further lines. -/
theorem parseGitLog_hunk_header (s : PState) (line : String) (rest : List String)
    (g1 g2 g3 g4 : List Char) (marked : Bool) (p : String)
    (hm : s.mode = .normal)
    (h : hunkMatch line = some (g1, g2, g3, g4, marked))
    (hd : s.curDiff = some p)
    (hle : (wrap64 ((if g2.length > 0 then goAtoi (strOf g2) else 1) +
             (if g4.length > 0 then goAtoi (strOf g4) else 1))).toNat ≤ rest.length) :
    (let OldStart := goAtoi (strOf g1)
     let OldLength := if g2.length > 0 then goAtoi (strOf g2) else 1
     let NewStart := goAtoi (strOf g3)
     let NewLength := if g4.length > 0 then goAtoi (strOf g4) else 1
     let s1 := { s with
       Files := updValA s.Files p
         (updLast (fun d =>
           { d with Hunks := d.Hunks ++ [⟨OldStart, OldLength, NewStart, NewLength⟩] })) }
     let n := (wrap64 (OldLength + NewLength)).toNat
     parseLoop s (line :: rest) =
       if marked then parseLoop s1 rest
       else parseLoop s1 (rest.drop n)) := by
  obtain ⟨sh, sc, sf, sa, sau, sck, scc, scd, sm⟩ := s
  replace hm : sm = PMode.normal := hm
  replace hd : scd = some p := hd
  subst hm
  subst hd
  simp only
  rw [show parseLoop ⟨sh, sc, sf, sa, sau, sck, scc, some p, .normal⟩ (line :: rest)
        = (match pstep ⟨sh, sc, sf, sa, sau, sck, scc, some p, .normal⟩ line with
           | .error e => .error e
           | .ok s1 => parseLoop s1 rest) from rfl]
  rw [pstep_normal _ line rfl, dispatch_hunk _ h rfl]
  cases marked with
  | true => simp
  | false =>
    simp only [Bool.false_eq_true, if_false]
    set n := (wrap64 ((if g2.length > 0 then goAtoi (strOf g2) else 1) +
      (if g4.length > 0 then goAtoi (strOf g4) else 1))).toNat with hn
    by_cases hz : n = 0
    · simp [hz, ← hn]
    · have h1 : 1 ≤ n := Nat.one_le_iff_ne_zero.mpr hz
      simp only [← hn, if_neg hz]
      exact parseLoop_skipDrop _ rest n rfl h1 hle

/-! ## Claim C4: index lines and checksum chaining -/

/-- Claim C4 counterexample: the claim states the `index <before>..<after>`
line records a before/after pair and that the next Diff's before-checksum is
taken from that pending pair when set.  The source stores only the after hash
(`groups[2]`); after `index aabb..ccdd` the next diff of a fresh path gets
`ChecksumBefore = ""` (inherited default), not `"aabb"`. -/
theorem parseGitLog_index_before_ignored :
    (ParseGitLog ["commit 0123456789abcdef0123456789abcdef01234567",
                  "index aabb..ccdd", "--- f", "+++ f"]).map
        (fun h => (lastDiffOf h "f").map (fun d => (d.ChecksumBefore, d.ChecksumAfter)))
      = .ok (some ("", "ccdd")) ∧
    (ParseGitLog ["commit 0123456789abcdef0123456789abcdef01234567",
                  "index aabb..ccdd", "--- f", "+++ f"]).map
        (fun h => (lastDiffOf h "f").map (fun d => (d.ChecksumBefore, d.ChecksumAfter)))
      ≠ .ok (some ("aabb", "ccdd")) := by
  constructor
  · decide
  · decide

/-- Claim C4 (amended): a well-formed `index <before>..<after>` line records
only the normalized after hash (`emptyZero` of regex group 2) as the pending
checksum; the before hash is ignored.  The next `--- ` header then builds a
Diff whose `ChecksumAfter` is that pending checksum and whose
`ChecksumBefore` is always inherited from the same path's most recent prior
Diff's `ChecksumAfter` (empty when the path has no prior Diff), never taken
from the index line's before hash; the pending checksum is cleared
afterwards. -/
theorem parseGitLog_index_pending_checksum :
    ∀ (s : PState) (line : String) (g1 g2 : List Char) (p line2 : String) (ci : Nat),
    (s.mode = .normal → indexMatch line = some (g1, g2) →
      pstep s line = .ok { s with checksum := emptyZero (strOf g2) }) ∧
    (s.mode = .dashes p → p ≠ "/dev/null" → s.curCommit = some ci →
      (let prior := lookupA s.Files p
       let csBefore := match prior with
         | none => ""
         | some l => (l.getLastD diffZero).ChecksumAfter
       let d : Diff := ⟨s.curCommit, p, csBefore, s.checksum, []⟩
       let newList := match prior with
         | none => [d]
         | some l => l ++ [d]
       pstep s line2 = .ok { s with
         mode := .normal
         Files := insertA s.Files p newList
         checksum := ""
         curDiff := some p
         arena := setArena s.arena ci (fun c => { c with Diffs := c.Diffs ++ [⟨p, newList.length - 1⟩] }) })) := by
  intro s line g1 g2 p line2 ci
  constructor
  · intro hm hidx
    rw [pstep_normal s line hm, dispatch_index s hidx]
  · intro hm hnd hc
    rw [pstep_dashes s line2 p hm,
      finishDashes_path { s with mode := PMode.normal } p line2 hnd hc]
    rfl

def sW : PState :=
  ⟨[], [], [("f", [⟨some 0, "f", "", "", []⟩])], [⟨"0123456789abcdef", "", 0, []⟩],
   [], "", some 0, some "f", .normal⟩

theorem parseGitLog_hunk_header_witness :
    hunkMatch "@@ -1,2 +3,4 @@" = some (['1'], ['2'], ['3'], ['4'], false) ∧
    parseLoop sW ["@@ -1,2 +3,4 @@", "a", "b", "c", "d", "e", "g", "x"] =
      parseLoop { sW with
        Files := [("f", [⟨some 0, "f", "", "", [⟨1, 2, 3, 4⟩]⟩])] } ["x"] := by
  constructor
  · decide
  · have h := parseGitLog_hunk_header sW "@@ -1,2 +3,4 @@" ["a", "b", "c", "d", "e", "g", "x"]
      ['1'] ['2'] ['3'] ['4'] false "f" rfl (by decide) rfl (by decide)
    exact h.trans (by decide)

def sIdx : PState := ⟨[], [], [], [⟨"h", "", 0, []⟩], [], "", some 0, none, .normal⟩

def sDash : PState :=
  ⟨[], [], [("f", [⟨some 0, "f", "", "aa", []⟩])], [⟨"h", "", 0, []⟩],
   [], "bb", some 0, some "f", .dashes "f"⟩

theorem parseGitLog_index_pending_checksum_witness :
    pstep sIdx "index aabb..ccdd" = .ok { sIdx with checksum := "ccdd" } ∧
    pstep sDash "+++ f" = .ok { sDash with
      mode := .normal
      Files := [("f", [⟨some 0, "f", "", "aa", []⟩, ⟨some 0, "f", "aa", "bb", []⟩])]
      checksum := ""
      curDiff := some "f"
      arena := [⟨"h", "", 0, [⟨"f", 1⟩]⟩] } := by
  constructor
  · have h := (parseGitLog_index_pending_checksum sIdx "index aabb..ccdd"
      ['a', 'a', 'b', 'b'] ['c', 'c', 'd', 'd'] "f" "x" 0).1 rfl (by decide)
    exact h.trans (by decide)
  · have h := (parseGitLog_index_pending_checksum sDash "x" [] [] "f" "+++ f" 0).2
      rfl (by decide) rfl
    exact h.trans (by decide)

theorem parseGitLog_hash_collision (id1 id2 : String)
    (h1 : 16 ≤ id1.length) (h2 : 16 ≤ id2.length)
    (hpre : id2.data.take 16 = id1.data.take 16) :
    ParseGitLog ["commit " ++ id1, "commit " ++ id2] =
      .ok ⟨[strOf (id1.data.take 16), strOf (id1.data.take 16)],
           [(strOf (id1.data.take 16), 1)], [],
           [⟨strOf (id1.data.take 16), "", 0, []⟩, ⟨strOf (id1.data.take 16), "", 0, []⟩]⟩ := by
  have t1 : pstep initPState ("commit " ++ id1)
      = .ok ⟨[strOf (id1.data.take 16)], [(strOf (id1.data.take 16), 0)], [],
             [⟨strOf (id1.data.take 16), "", 0, []⟩], [], "", some 0, none, .normal⟩ := by
    rw [pstep_normal _ _ rfl]
    exact dispatch_commit initPState id1 h1
  have t2 : pstep ⟨[strOf (id1.data.take 16)], [(strOf (id1.data.take 16), 0)], [],
             [⟨strOf (id1.data.take 16), "", 0, []⟩], [], "", some 0, none, .normal⟩
      ("commit " ++ id2)
      = .ok ⟨[strOf (id1.data.take 16), strOf (id1.data.take 16)],
             [(strOf (id1.data.take 16), 1)], [],
             [⟨strOf (id1.data.take 16), "", 0, []⟩, ⟨strOf (id1.data.take 16), "", 0, []⟩],
             [], "", some 1, none, .normal⟩ := by
    rw [pstep_normal _ _ rfl]
    have h := dispatch_commit ⟨[strOf (id1.data.take 16)], [(strOf (id1.data.take 16), 0)], [],
             [⟨strOf (id1.data.take 16), "", 0, []⟩], [], "", some 0, none, .normal⟩ id2 h2
    rw [hpre] at h
    rw [h]
    simp [insertA]
  unfold ParseGitLog
  simp only [parseLoop, t1, t2]
  rfl

theorem parseGitLog_hash_collision_witness :
    16 ≤ ("0123456789abcdefAAA" : String).length ∧
    16 ≤ ("0123456789abcdefBBB" : String).length ∧
    ("0123456789abcdefBBB" : String).data.take 16 = ("0123456789abcdefAAA" : String).data.take 16 ∧
    ParseGitLog ["commit " ++ "0123456789abcdefAAA", "commit " ++ "0123456789abcdefBBB"] =
      .ok ⟨[strOf (("0123456789abcdefAAA" : String).data.take 16),
            strOf (("0123456789abcdefAAA" : String).data.take 16)],
           [(strOf (("0123456789abcdefAAA" : String).data.take 16), 1)], [],
           [⟨strOf (("0123456789abcdefAAA" : String).data.take 16), "", 0, []⟩,
            ⟨strOf (("0123456789abcdefAAA" : String).data.take 16), "", 0, []⟩]⟩ :=
  ⟨by decide, by decide, by decide,
   parseGitLog_hash_collision "0123456789abcdefAAA" "0123456789abcdefBBB"
     (by decide) (by decide) (by decide)⟩

theorem parseGitLog_dashes_consumes_next (s : PState) (p l2 : String) (rest : List String)
    (ci : Nat) (hm : s.mode = .normal) (hc : s.curCommit = some ci)
    (hdev : p = "/dev/null" → 4 ≤ l2.length) :
    (let path := if p = "/dev/null" then strOf (l2.data.drop 4) else p
     let prior := lookupA s.Files path
     let csBefore := match prior with
       | none => ""
       | some l => (l.getLastD diffZero).ChecksumAfter
     let d : Diff := ⟨s.curCommit, path, csBefore, s.checksum, []⟩
     let newList := match prior with
       | none => [d]
       | some l => l ++ [d]
     parseLoop s (("--- " ++ p) :: l2 :: rest) =
       parseLoop { s with
         Files := insertA s.Files path newList
         checksum := ""
         curDiff := some path
         arena := setArena s.arena ci (fun c => { c with Diffs := c.Diffs ++ [⟨path, newList.length - 1⟩] }) } rest) := by
  obtain ⟨sh, sc, sf, sa, sau, sck, scc, scd, sm⟩ := s
  replace hm : sm = PMode.normal := hm
  replace hc : scc = some ci := hc
  subst hm
  subst hc
  simp only [parseLoop]
  rw [pstep_normal _ _ rfl, dispatch_dashes _ p]
  simp only
  rw [pstep_dashes _ l2 p rfl]
  by_cases hp : p = "/dev/null"
  · subst hp
    rw [finishDashes_devnull _ l2 (hdev rfl) rfl]
    rfl
  · rw [finishDashes_path _ p l2 hp rfl]
    simp only [if_neg hp]
    rfl

def sTen : PState := ⟨[], [], [], [⟨"h", "", 0, []⟩], [], "cc", some 0, none, .normal⟩

theorem parseGitLog_dashes_consumes_next_witness :
    ("/dev/null" = "/dev/null" → 4 ≤ ("+++ g.txt" : String).length) ∧
    parseLoop sTen ["--- /dev/null", "+++ g.txt", "x"] =
      parseLoop { sTen with
        Files := [("g.txt", [⟨some 0, "g.txt", "", "cc", []⟩])]
        checksum := ""
        curDiff := some "g.txt"
        arena := [⟨"h", "", 0, [⟨"g.txt", 0⟩]⟩] } ["x"] := by
  constructor
  · intro _
    decide
  · have h := parseGitLog_dashes_consumes_next sTen "/dev/null" "+++ g.txt" ["x"] 0 rfl rfl
      (fun _ => by decide)
    exact h.trans (by decide)

/-! ## Claim C6: checksum chain continuity -/

theorem lookupA_insertA {α : Type} (l : List (String × α)) (k key : String) (v : α) :
    lookupA (insertA l k v) key = if k = key then some v else lookupA l key := by
  induction l with
  | nil => simp [insertA, lookupA]
  | cons hd t ih =>
    obtain ⟨k0, v0⟩ := hd
    by_cases h0 : k0 = k
    · subst h0
      by_cases h : k0 = key <;> simp [insertA, lookupA, h]
    · by_cases h : k0 = key
      · subst h
        simp [insertA, lookupA, h0]
        rw [if_neg (fun he : k = k0 => h0 he.symm)]
      · simp [insertA, lookupA, h0, h, ih]

theorem lookupA_updValA {α : Type} (l : List (String × α)) (k key : String) (f : α → α) :
    lookupA (updValA l k f) key = if k = key then (lookupA l key).map f else lookupA l key := by
  induction l with
  | nil => simp [updValA, lookupA]
  | cons hd t ih =>
    obtain ⟨k0, v0⟩ := hd
    by_cases h0 : k0 = k
    · subst h0
      by_cases h : k0 = key <;> simp [updValA, lookupA, h]
    · by_cases h : k0 = key
      · subst h
        have hk : ¬ (k = k0) := fun he => h0 he.symm
        simp [updValA, lookupA, h0, hk]
      · simp [updValA, lookupA, h0, h, ih]

/-- Checksum continuity between consecutive diffs: the later diff opens on the
blob the earlier one produced. -/
def csChained (d1 d2 : Diff) : Prop := d2.ChecksumBefore = d1.ChecksumAfter

theorem chain'_updLast {α : Type} {R : α → α → Prop} {f : α → α}
    (hf : ∀ a b, R a b → R a (f b)) :
    ∀ l : List α, l.Chain' R → (updLast f l).Chain' R
  | [], _ => by simp [updLast]
  | [a], _ => by simp [updLast]
  | a :: b :: t, h => by
    rw [show updLast f (a :: b :: t) = a :: updLast f (b :: t) from rfl]
    rw [List.chain'_cons] at h
    cases t with
    | nil =>
      simpa [updLast, List.chain'_cons] using hf a b h.1
    | cons c t2 =>
      rw [show updLast f (b :: c :: t2) = b :: updLast f (c :: t2) from rfl,
        List.chain'_cons]
      exact ⟨h.1, by
        have := chain'_updLast hf (b :: c :: t2) h.2
        rwa [show updLast f (b :: c :: t2) = b :: updLast f (c :: t2) from rfl] at this⟩

/-- Invariant: every per-path diff list in `Files` is checksum-chained. -/
def FInv (fs : List (String × List Diff)) : Prop :=
  ∀ p l, lookupA fs p = some l → l.Chain' csChained

theorem finishDashes_FInv (s : PState) (p line2 : String) (s2 : PState)
    (hinv : FInv s.Files) (h : finishDashes s p line2 = .ok s2) : FInv s2.Files := by
  simp only [finishDashes] at h
  by_cases hdev : p = "/dev/null" ∧ line2.data.length < 4
  · rw [if_pos hdev] at h
    cases h
  · rw [if_neg hdev] at h
    cases hc : s.curCommit with
    | none =>
      rw [hc] at h
      cases h
    | some ci =>
      rw [hc] at h
      injection h with h2
      subst h2
      intro q lq hlq
      generalize hg : (if p = "/dev/null" then strOf (line2.data.drop 4) else p) = pa at hlq
      simp only [lookupA_insertA] at hlq
      split at hlq
      · injection hlq with h3
        subst h3
        cases hprior : lookupA s.Files pa with
        | none => simp [hprior]
        | some lold =>
          simp only [hprior]
          rw [List.chain'_append]
          refine ⟨hinv _ lold hprior, by simp, ?_⟩
          intro x hx y hy
          simp only [List.head?_cons, Option.mem_def, Option.some.injEq] at hy
          subst hy
          show Diff.ChecksumBefore _ = _
          simp only [List.getLastD_eq_getLast?]
          rw [Option.mem_def] at hx
          rw [hx]
          rfl
      · exact hinv q lq hlq

theorem FInv_updValA_hunks (fs : List (String × List Diff)) (p : String) (hk : Hunk)
    (hinv : FInv fs) :
    FInv (updValA fs p (updLast fun d => { d with Hunks := d.Hunks ++ [hk] })) := by
  intro q lq hlq
  simp only [lookupA_updValA] at hlq
  split at hlq
  · cases hold : lookupA fs q with
    | none => simp [hold] at hlq
    | some lold =>
      rw [hold] at hlq
      injection hlq with h3
      subst h3
      exact @chain'_updLast Diff csChained
        (fun d => { d with Hunks := d.Hunks ++ [hk] })
        (fun a b hr => hr) lold (hinv q lold hold)
  · exact hinv q lq hlq

theorem dispatch_FInv (s : PState) (l : String) (s2 : PState)
    (hinv : FInv s.Files) (h : dispatch s l = .ok s2) : FInv s2.Files := by
  unfold dispatch at h
  simp only [] at h
  repeat' split at h
  all_goals first
    | (injection h with h2; subst h2;
       first
         | exact hinv
         | exact FInv_updValA_hunks _ _ _ hinv)
    | cases h

theorem pstep_FInv (s : PState) (l : String) (s2 : PState)
    (hinv : FInv s.Files) (h : pstep s l = .ok s2) : FInv s2.Files := by
  unfold pstep at h
  split at h
  · injection h with h2
    subst h2
    exact hinv
  · exact finishDashes_FInv { s with mode := PMode.normal } _ l s2 hinv h
  · exact dispatch_FInv s l s2 hinv h

theorem parseLoop_FInv (ls : List String) : ∀ (s s2 : PState),
    FInv s.Files → parseLoop s ls = .ok s2 → FInv s2.Files := by
  induction ls with
  | nil =>
    intro s s2 hinv h
    injection h with h2
    subst h2
    exact hinv
  | cons l t ih =>
    intro s s2 hinv h
    simp only [parseLoop] at h
    cases hp : pstep s l with
    | error e =>
      rw [hp] at h
      cases h
    | ok s1 =>
      rw [hp] at h
      exact ih s1 s2 (pstep_FInv s l s1 hinv hp) h

/-- Claim C6: in every GitHistory returned by ParseGitLog, for every path and
every pair of consecutive diffs of that path in oldest-first order, the later
diff's `ChecksumBefore` equals the earlier diff's `ChecksumAfter` or is the
empty string (creation).  The code in fact guarantees the plain equality: each
new diff's `ChecksumBefore` is copied from the previous diff's
`ChecksumAfter`, so the first disjunct always holds. -/
theorem parseGitLog_checksum_chain (lines : List String) (h : GitHistory)
    (hok : ParseGitLog lines = .ok h) (p : String) (l : List Diff)
    (hl : lookupA h.Files p = some l) :
    l.Chain' (fun d1 d2 => d2.ChecksumBefore = d1.ChecksumAfter ∨ d2.ChecksumBefore = "") := by
  have hinit : FInv initPState.Files := by
    intro q lq hlq
    simp [initPState, lookupA] at hlq
  have hstrong : l.Chain' csChained := by
    unfold ParseGitLog at hok
    cases hp : parseLoop initPState lines with
    | error e =>
      rw [hp] at hok
      cases hok
    | ok s =>
      rw [hp] at hok
      simp only [] at hok
      have hsf : FInv s.Files := parseLoop_FInv lines initPState s hinit hp
      cases hm : s.mode with
      | dashes p2 =>
        rw [hm] at hok
        simp only [] at hok
        cases hfd : finishDashes { s with mode := .normal } p2 "" with
        | error e =>
          rw [hfd] at hok
          cases hok
        | ok s1 =>
          rw [hfd] at hok
          injection hok with h2
          subst h2
          exact finishDashes_FInv { s with mode := PMode.normal } p2 "" s1 hsf hfd p l hl
      | normal =>
        rw [hm] at hok
        simp only [] at hok
        injection hok with h2
        subst h2
        exact hsf p l hl
      | skip n =>
        rw [hm] at hok
        simp only [] at hok
        injection hok with h2
        subst h2
        exact hsf p l hl
  exact hstrong.imp (fun a b hr => Or.inl hr)

theorem parseGitLog_checksum_chain_witness :
    ([⟨some 0, "f", "", "abcd", []⟩, ⟨some 0, "f", "abcd", "ef01", []⟩] : List Diff).Chain'
      (fun d1 d2 => d2.ChecksumBefore = d1.ChecksumAfter ∨ d2.ChecksumBefore = "") :=
  parseGitLog_checksum_chain
    ["commit 0123456789abcdef0123456789abcdef01234567", "index 0000..abcd",
     "--- f", "+++ f", "index abcd..ef01", "--- f", "+++ f"]
    ⟨["0123456789abcdef"], [("0123456789abcdef", 0)],
     [("f", [⟨some 0, "f", "", "abcd", []⟩, ⟨some 0, "f", "abcd", "ef01", []⟩])],
     [⟨"0123456789abcdef", "", 0, [⟨"f", 0⟩, ⟨"f", 1⟩]⟩]⟩
    (by decide) "f"
    [⟨some 0, "f", "", "abcd", []⟩, ⟨some 0, "f", "abcd", "ef01", []⟩]
    (by decide)

theorem stripLoop_budget : ∀ (ls : List String) (m : SMode) (k : Nat),
    k < (stripLoop none m ls).1.length →
    stripLoop (some k) m ls = ((stripLoop none m ls).1.take k, .returned) := by
  intro ls
  induction ls with
  | nil =>
    intro m k hk
    cases m with
    | normal => simp [stripLoop] at hk
    | skipThenWrite n pend =>
      simp only [stripLoop, useBudget] at hk ⊢
      have hk0 : k = 0 := by
        simp at hk
        omega
      subst hk0
      simp [useBudget]
  | cons l rest ih =>
    intro m k hk
    cases m with
    | skipThenWrite n pend =>
      cases n with
      | zero =>
        simp only [stripLoop, useBudget] at hk ⊢
        cases k with
        | zero => simp [useBudget]
        | succ k0 =>
          simp only [useBudget]
          have hk2 : k0 < (stripLoop none SMode.normal rest).1.length := by
            simp at hk
            omega
          rw [ih .normal k0 hk2]
          simp
      | succ n0 =>
        simp only [stripLoop] at hk ⊢
        exact ih _ k hk
    | normal =>
      by_cases hpass : stripPassThrough l
      · simp only [stripLoop, hpass, if_pos, useBudget] at hk ⊢
        cases k with
        | zero => simp [useBudget]
        | succ k0 =>
          simp only [useBudget]
          have hk2 : k0 < (stripLoop none SMode.normal rest).1.length := by
            simp at hk
            omega
          rw [ih .normal k0 hk2]
          simp
      · by_cases hat : hasPre "@@ " l
        · simp only [stripLoop, hpass, hat, if_neg, if_pos, Bool.not_eq_true] at hk ⊢
          cases hfs : findSub [' ', '@', '@'] (l.data.drop 3) with
          | none => simp [hfs] at hk
          | some i =>
            simp only [hfs, List.cons_append] at hk ⊢
            cases hhm : hunkMatchStrip (strOf ('@' :: '@' :: ' ' :: ((l.data.drop 3).take i ++ [' ', '@', '@', '-']))) with
            | none => simp [hhm] at hk
            | some t =>
              obtain ⟨t1, t2, t3, t4⟩ := t
              simp only [hhm] at hk ⊢
              by_cases hz : (wrap64 ((if t2.length > 0 then goAtoi (strOf t2) else 1) +
                  (if t4.length > 0 then goAtoi (strOf t4) else 1))).toNat = 0
              · simp only [hz, if_pos, useBudget] at hk ⊢
                cases k with
                | zero => simp [useBudget]
                | succ k0 =>
                  simp only [useBudget]
                  have hk2 : k0 < (stripLoop none SMode.normal rest).1.length := by
                    simp at hk
                    omega
                  rw [ih .normal k0 hk2]
                  simp
              · simp only [hz, if_neg] at hk ⊢
                exact ih _ k hk
        · simp only [stripLoop, hpass, hat, if_neg, Bool.not_eq_true] at hk ⊢
          exact ih _ k hk

/-- Claim C8: when the `fmt.Print` writer fails (here: on the write after `k`
successful ones, with the unbounded run writing more than `k` lines),
`StripGitLog` stops at once — the output is exactly the first `k` lines of the
unbounded output — and returns via `return nil`, i.e. with no error: the
returned error is never caused by the downstream writer (on an in-memory
stream the scanner cannot fail, so every non-panicking return carries the nil
error, modelled by `StripEnd.returned`). -/
theorem stripGitLog_silent_on_write_failure (ls : List String) (k : Nat)
    (h : k < (stripOutput ls).length) :
    StripGitLog (some k) ls = ((stripOutput ls).take k, .returned) :=
  stripLoop_budget ls .normal k h

/-- Claim C8 witness. -/
theorem stripGitLog_silent_on_write_failure_witness :
    2 < (stripOutput ["commit x", "Author: a", "Date: 1", "junk", "index y"]).length ∧
    StripGitLog (some 2) ["commit x", "Author: a", "Date: 1", "junk", "index y"] =
      ((stripOutput ["commit x", "Author: a", "Date: 1", "junk", "index y"]).take 2, .returned) :=
  ⟨by decide,
   stripGitLog_silent_on_write_failure ["commit x", "Author: a", "Date: 1", "junk", "index y"] 2
     (by decide)⟩

/-! ## Claim C5: characterising the inputs on which `ParseGitLog` returns -/

/-- Abstract checker state: does a current commit exist, does a current diff
exist, and the scan mode. -/
structure CState where
  hasCommit : Bool
  hasDiff : Bool
  cmode : PMode
deriving Repr, DecidableEq

/-- Checker for the `--- ` completion: mirrors exactly the two panic sources
of `finishDashes` (short `+++` companion of a `/dev/null` header; no current
commit). -/
def cfinishDashes (c : CState) (p line2 : String) : Option CState :=
  if p = "/dev/null" ∧ line2.data.length < 4 then none
  else if c.hasCommit then some { c with hasDiff := true, cmode := .normal } else none

/-- Checker for one dispatched line: mirrors exactly the panic sources of
`dispatch` (short `commit` line; regex-matching hunk header with no current
diff; fallthrough line with no current commit). -/
def cdispatch (c : CState) (line : String) : Option CState :=
  if hasPre "commit " line then
    if line.data.length < 7 + HashLength then none
    else some { c with hasCommit := true }
  else if hasPre "index " line then some c
  else if hasPre "--- " line then some { c with cmode := .dashes (strOf (line.data.drop 4)) }
  else if hasPre "@@ " line then
    match hunkMatch line with
    | none => some c
    | some (_, g2, _, g4, marked) =>
      if c.hasDiff then
        if marked then some c
        else
          let n := (wrap64 ((if g2.length > 0 then goAtoi (strOf g2) else 1) +
            (if g4.length > 0 then goAtoi (strOf g4) else 1))).toNat
          some { c with cmode := if n = 0 then .normal else .skip n }
      else none
  else if c.hasCommit then some c else none

/-- Checker for one scanned line in any mode. -/
def cstep (c : CState) (line : String) : Option CState :=
  match c.cmode with
  | .skip n => some { c with cmode := if n ≤ 1 then .normal else .skip (n - 1) }
  | .dashes p => cfinishDashes { c with cmode := .normal } p line
  | .normal => cdispatch c line

/-- Whole-stream checker, including the end-of-stream completion of a pending
`--- ` header. -/
def checkLoop : CState → List String → Bool
  | c, [] =>
    match c.cmode with
    | .dashes p => (cfinishDashes { c with cmode := .normal } p "").isSome
    | _ => true
  | c, l :: ls =>
    match cstep c l with
    | none => false
    | some c2 => checkLoop c2 ls

/-- Syntactic panic-freedom condition on an input stream. -/
def parseSafe (ls : List String) : Bool := checkLoop ⟨false, false, .normal⟩ ls

/-- Abstraction relation between parser states and checker states. -/
def AbsRel (s : PState) (c : CState) : Prop :=
  c.hasCommit = s.curCommit.isSome ∧ c.hasDiff = s.curDiff.isSome ∧ c.cmode = s.mode

theorem dispatch_fallthrough (s : PState) (l : String) (ci : Nat) (hc : s.curCommit = some ci)
    (n1 : hasPre "commit " l = false) (n2 : hasPre "index " l = false)
    (n3 : hasPre "--- " l = false) (n4 : hasPre "@@ " l = false) :
    ∃ s2, dispatch s l = .ok s2 ∧ s2.curCommit = s.curCommit ∧
      s2.curDiff = s.curDiff ∧ s2.mode = s.mode := by
  unfold dispatch
  simp only [n1, n2, n3, n4, hc, Bool.false_eq_true, if_false]
  repeat' split
  all_goals exact ⟨_, rfl, by simp [hc], by simp, by simp⟩

theorem cfinishDashes_sound (s : PState) (c : CState) (p line2 : String) (c2 : CState)
    (hr : AbsRel s c) (h : cfinishDashes { c with cmode := .normal } p line2 = some c2) :
    ∃ s2, finishDashes { s with mode := .normal } p line2 = .ok s2 ∧ AbsRel s2 c2 := by
  obtain ⟨h1, h2, h3⟩ := hr
  unfold cfinishDashes at h
  by_cases hdev : p = "/dev/null" ∧ line2.data.length < 4
  · rw [if_pos hdev] at h
    cases h
  · rw [if_neg hdev] at h
    simp only at h
    cases hcb : c.hasCommit with
    | false =>
      rw [hcb] at h
      cases h
    | true =>
      rw [hcb] at h
      injection h with h4
      subst h4
      cases hcc : s.curCommit with
      | none => rw [hcc] at h1; rw [hcb] at h1; cases h1
      | some ci =>
        unfold finishDashes
        rw [if_neg hdev]
        simp only [hcc]
        exact ⟨_, rfl, by simpa using h1, by simp, by simp⟩

theorem cstep_sound (s : PState) (c : CState) (l : String) (c2 : CState)
    (hr : AbsRel s c) (h : cstep c l = some c2) :
    ∃ s2, pstep s l = .ok s2 ∧ AbsRel s2 c2 := by
  obtain ⟨h1, h2, h3⟩ := hr
  unfold cstep at h
  unfold pstep
  rw [← h3]
  cases hcm : c.cmode with
  | skip n =>
    rw [hcm] at h
    injection h with h4
    subst h4
    exact ⟨_, rfl, h1, h2, by simp⟩
  | dashes p =>
    rw [hcm] at h
    exact cfinishDashes_sound s c p l c2 ⟨h1, h2, h3⟩ h
  | normal =>
    rw [hcm] at h
    unfold cdispatch at h
    by_cases hb1 : hasPre "commit " l = true
    · simp only [hb1, if_true] at h
      by_cases hlen : l.data.length < 7 + HashLength
      · rw [if_pos hlen] at h
        cases h
      · rw [if_neg hlen] at h
        injection h with h4
        subst h4
        unfold dispatch
        simp only [hb1, if_true, if_neg hlen]
        exact ⟨_, rfl, by simp, by simpa using h2, by simpa using h3⟩
    · replace hb1 : hasPre "commit " l = false := by
        cases hx : hasPre "commit " l
        · rfl
        · exact absurd hx hb1
      simp only [hb1, Bool.false_eq_true, if_false] at h
      by_cases hb2 : hasPre "index " l = true
      · simp only [hb2, if_true] at h
        injection h with h4
        subst h4
        unfold dispatch
        simp only [hb1, hb2, Bool.false_eq_true, if_false, if_true]
        cases him : indexMatch l with
        | none => exact ⟨_, rfl, h1, h2, h3⟩
        | some t =>
          obtain ⟨g1, g2⟩ := t
          exact ⟨_, rfl, h1, h2, h3⟩
      · replace hb2 : hasPre "index " l = false := by
          cases hx : hasPre "index " l
          · rfl
          · exact absurd hx hb2
        simp only [hb2, Bool.false_eq_true, if_false] at h
        by_cases hb3 : hasPre "--- " l = true
        · simp only [hb3, if_true] at h
          injection h with h4
          subst h4
          unfold dispatch
          simp only [hb1, hb2, hb3, Bool.false_eq_true, if_false, if_true]
          exact ⟨_, rfl, h1, h2, by simp⟩
        · replace hb3 : hasPre "--- " l = false := by
            cases hx : hasPre "--- " l
            · rfl
            · exact absurd hx hb3
          simp only [hb3, Bool.false_eq_true, if_false] at h
          by_cases hb4 : hasPre "@@ " l = true
          · simp only [hb4, if_true] at h
            unfold dispatch
            simp only [hb1, hb2, hb3, hb4, Bool.false_eq_true, if_false, if_true]
            cases hhm : hunkMatch l with
            | none =>
              rw [hhm] at h
              injection h with h4
              subst h4
              exact ⟨_, rfl, h1, h2, h3⟩
            | some t =>
              obtain ⟨g1, g2, g3, g4, marked⟩ := t
              rw [hhm] at h
              simp only at h
              cases hdb : c.hasDiff with
              | false =>
                rw [hdb] at h
                cases h
              | true =>
                rw [hdb] at h
                cases hcd : s.curDiff with
                | none =>
                  rw [hcd] at h2
                  rw [hdb] at h2
                  cases h2
                | some pd =>
                  simp only [hcd]
                  cases marked with
                  | true =>
                    injection h with h4
                    subst h4
                    exact ⟨_, rfl, h1, by simp [hdb], by simpa using h3⟩
                  | false =>
                    simp only at h
                    injection h with h4
                    subst h4
                    exact ⟨_, rfl, h1, by simpa using h2, by simp⟩
          · replace hb4 : hasPre "@@ " l = false := by
              cases hx : hasPre "@@ " l
              · rfl
              · exact absurd hx hb4
            simp only [hb4, Bool.false_eq_true, if_false] at h
            cases hcb : c.hasCommit with
            | false =>
              rw [hcb] at h
              cases h
            | true =>
              rw [hcb] at h
              injection h with h4
              subst h4
              cases hcc : s.curCommit with
              | none =>
                rw [hcc] at h1
                rw [hcb] at h1
                cases h1
              | some ci =>
                obtain ⟨s2, hs2, e1, e2, e3⟩ := dispatch_fallthrough s l ci hcc hb1 hb2 hb3 hb4
                exact ⟨s2, hs2, by rw [e1]; exact h1, by rw [e2]; exact h2, by rw [e3]; exact h3⟩

/-- End-of-stream completion of the parser, as performed by `ParseGitLog`
after the scan loop. -/
def parseTail (s : PState) : Except GoPanic GitHistory :=
  match s.mode with
  | .dashes p =>
    match finishDashes { s with mode := .normal } p "" with
    | .error e => .error e
    | .ok s1 => .ok (extractHistory s1)
  | _ => .ok (extractHistory s)

theorem ParseGitLog_decomp (ls : List String) :
    ParseGitLog ls =
      (match parseLoop initPState ls with
       | .error e => .error e
       | .ok s => parseTail s) := by
  unfold ParseGitLog parseTail
  cases parseLoop initPState ls with
  | error e => rfl
  | ok s => cases s.mode <;> rfl

theorem checkLoop_sound : ∀ (ls : List String) (s : PState) (c : CState),
    AbsRel s c → checkLoop c ls = true →
    ∃ s2, parseLoop s ls = .ok s2 ∧ (parseTail s2).isOk = true := by
  intro ls
  induction ls with
  | nil =>
    intro s c hr hc
    obtain ⟨h1, h2, h3⟩ := hr
    refine ⟨s, rfl, ?_⟩
    unfold checkLoop at hc
    unfold parseTail
    rw [← h3]
    cases hcm : c.cmode with
    | dashes p =>
      rw [hcm] at hc
      simp only [] at hc
      simp only [Option.isSome_iff_exists] at hc
      obtain ⟨c2, hc2⟩ := hc
      obtain ⟨s3, hs3, _⟩ := cfinishDashes_sound s c p "" c2 ⟨h1, h2, h3⟩ hc2
      simp only []
      rw [hs3]
      rfl
    | normal => rfl
    | skip n => rfl
  | cons l t ih =>
    intro s c hr hc
    unfold checkLoop at hc
    cases hcs : cstep c l with
    | none =>
      rw [hcs] at hc
      cases hc
    | some c2 =>
      rw [hcs] at hc
      obtain ⟨s1, hs1, hr1⟩ := cstep_sound s c l c2 hr hcs
      obtain ⟨s2, hs2, ht⟩ := ih s1 c2 hr1 hc
      refine ⟨s2, ?_, ht⟩
      simp only [parseLoop, hs1]
      exact hs2

/-- Claim C5 (amended): `ParseGitLog` returns normally on every input stream
in which each dispatched line finds the state it dereferences — captured by
the syntactic checker `parseSafe`, which scans the stream the way the parser
does and demands that a `commit ` line has at least 23 characters, that a
regex-matching hunk header arrives only while a current diff exists, that any
line reaching the Author/Date/other fallthrough (and any `--- ` header)
arrives only while a current commit exists, and that the line after a
`--- /dev/null` header has at least 4 characters.  Unrecognized or malformed
`index` lines and hunk headers rejected by the regex are skipped without
aborting (they leave the checker state unchanged); on such safe streams the
only remaining abort condition in the source is a scanner-level I/O failure,
which cannot occur on an in-memory stream. -/
theorem parseGitLog_total_on_safe (ls : List String) (h : parseSafe ls = true) :
    (ParseGitLog ls).isOk = true := by
  obtain ⟨s2, hp, ht⟩ := checkLoop_sound ls initPState ⟨false, false, .normal⟩ ⟨rfl, rfl, rfl⟩ h
  rw [ParseGitLog_decomp ls, hp]
  exact ht

/-- Claim C5 witness: a stream with a malformed index line and a malformed
hunk header (skipped), plus all well-formed constructs, passes the checker and
parses without panic. -/
theorem parseGitLog_total_on_safe_witness :
    parseSafe ["commit 0123456789abcdef0123456789abcdef01234567", "Author: a@b",
               "Date: 20240101", "index notahash", "index 00..ab", "--- /dev/null",
               "+++ f", "@@ gibberish @@", "@@ -1,0 +1,2 @@-"] = true ∧
    (ParseGitLog ["commit 0123456789abcdef0123456789abcdef01234567", "Author: a@b",
               "Date: 20240101", "index notahash", "index 00..ab", "--- /dev/null",
               "+++ f", "@@ gibberish @@", "@@ -1,0 +1,2 @@-"]).isOk = true :=
  ⟨by decide,
   parseGitLog_total_on_safe ["commit 0123456789abcdef0123456789abcdef01234567", "Author: a@b",
               "Date: 20240101", "index notahash", "index 00..ab", "--- /dev/null",
               "+++ f", "@@ gibberish @@", "@@ -1,0 +1,2 @@-"] (by decide)⟩
